import Mathlib

/-!
Shallow embedding of the package container codec of the `media` repository
(`src/package.rs`: `Package::load`, `Package::save`, `Package::file`), together
with the auxiliary data (`Manifest`, the binary codec primitives) those
functions use.  Byte strings are `List Nat` with each element a byte value;
`u64` fields are little-endian 8-byte sequences; the target platform is 64-bit,
so `u64 → usize` conversions never fail (the corresponding error variants are
kept for fidelity but are unreachable in the model).

External collaborators (the `blake3` crate's hash function, `ciborium`'s CBOR
serialization, `Manifest::verify`, and `mime_guess`) are not part of this
repository's code; they are abstracted as fields of an `Ext` record, and the
properties the spec promises about them are taken as explicit hypotheses where
a claim needs them.
-/

namespace Media

/-- Raw bytes, modelling `Vec<u8>` / `&[u8]`; each element is a byte value. -/
abbrev Bytes := List Nat

/-- `Package::MAGIC_BYTES = "MEDIA📦\0"`: the UTF-8 bytes of the marker.
`MEDIA` is 5 bytes, U+1F4E6 encodes as `F0 9F 93 A6` (4 bytes), then NUL:
10 bytes in total. -/
def MAGIC_BYTES : Bytes := [77, 69, 68, 73, 65, 240, 159, 147, 166, 0]

/-- Strict lexicographic order on byte strings: Rust's `Ord` on `[u8; 32]`
(used as `hash.as_bytes() >= last.as_bytes()` in `load` and as the
`sort_by_key` key order in `save`). -/
def bytesLt : Bytes → Bytes → Bool
  | _, [] => false
  | [], _ :: _ => true
  | a :: as, b :: bs => if a < b then true else if b < a then false else bytesLt as bs

/-- The `Type` tag (`media::Type`), used by `Manifest::App`'s `handles` field. -/
inductive Ty
  | app
  | comic
deriving DecidableEq

/-- Modelled from the spec: the `Manifest` type's own definition is not under
`src/`; its two variants and their fields are fixed by spec §3 and by the
constructors used in `template.rs` (`App { handles, paths: BTreeMap<String,
Hash> }`, `Comic { pages: Vec<Hash> }`).  The `BTreeMap` is modelled as an
association list. -/
inductive Manifest
  | App (handles : Ty) (paths : List (String × Bytes))
  | Comic (pages : List Bytes)
deriving DecidableEq

/-- The hashes a manifest references (`App`: its path table's values; `Comic`:
its pages).  Used to state the guarantee of the external `Manifest::verify`. -/
def manifestHashes : Manifest → List Bytes
  | .App _ paths => paths.map Prod.snd
  | .Comic pages => pages

/-- The `package::Error` enum.  `IoEof` stands for the transparent `Io` variant
wrapping `io::ErrorKind::UnexpectedEof`, the only I/O failure a pure byte
stream can produce in `load`.  `FileLengthRange` and `ManifestIndexRange` are
unreachable on the modelled 64-bit platform but kept for fidelity. -/
inductive Error
  | DeserializeManifest
  | FileHashDuplicated (hash : Bytes)
  | FileHashInvalid (actual expected : Bytes)
  | FileHashOrder (hash : Bytes)
  | FileLengthRange (len : Nat)
  | FileIoError (path : String)
  | IoEof
  | IoCopyError (path : String)
  | MagicBytes (bytes : Bytes)
  | ManifestExtraFiles (extra : Nat)
  | ManifestIndexOutOfBounds (index : Nat)
  | ManifestIndexRange (index : Nat)
  | ManifestMissingFiles (missing : Nat)
  | TrailingBytes (trailing : Nat)
deriving DecidableEq

/-- The external collaborators used by the codec, abstracted as functions:
`blake3` is `blake3::hash` (as raw 32 bytes), `ser`/`de` are `ciborium`'s
serialization and deserialization of a `Manifest`, `verify` is the external
`Manifest::verify` consistency check, and `mimeGuess` is
`mime_guess::from_path(..).first()` (content types as plain strings). -/
structure Ext where
  blake3 : Bytes → Bytes
  ser : Manifest → Bytes
  de : Bytes → Option Manifest
  verify : Manifest → Bytes → List (Bytes × Bytes) → Except Error Unit
  mimeGuess : String → Option String

/-- The validated in-memory result of `load`: the `files` hash map is an
association list from hash to blob bytes (keys are distinct by `load`'s
duplicate check). -/
structure Package where
  files : List (Bytes × Bytes)
  manifest : Manifest
deriving DecidableEq

/-- Modelled from the spec: `write_u64` (codec helper not under `src/`) emits a
u64 as 8 little-endian bytes (spec §4.1). -/
def le64 (n : Nat) : Bytes :=
  [n % 256, n / 256 % 256, n / 256 ^ 2 % 256, n / 256 ^ 3 % 256,
   n / 256 ^ 4 % 256, n / 256 ^ 5 % 256, n / 256 ^ 6 % 256, n / 256 ^ 7 % 256]

/-- Little-endian byte decoding, inverse of `le64` on 8-byte strings. -/
def fromLE (bs : Bytes) : Nat := bs.foldr (fun b acc => b + 256 * acc) 0

/-- Modelled from the spec: `read_u64` (codec helper not under `src/`) reads
exactly 8 bytes and decodes them little-endian (spec §4.1); a short stream is
an `UnexpectedEof` I/O error, as for any `read_exact`. -/
def readU64 (s : Bytes) : Except Error (Nat × Bytes) :=
  if 8 ≤ s.length then .ok (fromLE (s.take 8), s.drop 8) else .error .IoEof

/-- Modelled from the spec: `read_hash` (codec helper not under `src/`) reads
exactly the 32 raw bytes of a hash (spec §4.1). -/
def readHash (s : Bytes) : Except Error (Bytes × Bytes) :=
  if 32 ≤ s.length then .ok (s.take 32, s.drop 32) else .error .IoEof

/-- `Read::read_exact` into a buffer of `n` bytes on a pure byte stream. -/
def readExact (n : Nat) (s : Bytes) : Except Error (Bytes × Bytes) :=
  if n ≤ s.length then .ok (s.take n, s.drop n) else .error .IoEof

/-- The magic-marker stage of `load`: the code reads into a zero-initialized
buffer of `MAGIC_BYTES.len()` bytes, looping until the buffer is full or EOF,
then compares the whole buffer with the marker; on mismatch it reports only the
`read` bytes actually read. -/
def parseMagic (input : Bytes) : Except Error Bytes :=
  if input.take 10 ++ List.replicate (10 - input.length) 0 = MAGIC_BYTES then
    .ok (input.drop 10)
  else
    .error (.MagicBytes (input.take 10))

/-- The entry-table loop of `load`: reads `count` (hash, length) pairs, and for
each pair after the first checks the hash against the previous one — ordering
violation if strictly below it, duplicate violation if equal.  (`usize::
try_from(len)` always succeeds on the 64-bit target, so no `FileLengthRange`.) -/
def readTable : Nat → Option Bytes → Bytes → Except Error (List (Bytes × Nat) × Bytes)
  | 0, _, s => .ok ([], s)
  | n + 1, prev, s => do
    let (h, s) ← readHash s
    let (len, s) ← readU64 s
    match prev with
    | some ph =>
      if bytesLt h ph then .error (.FileHashOrder h)
      else if h = ph then .error (.FileHashDuplicated h)
      else do
        let (rest, s) ← readTable n (some h) s
        .ok ((h, len) :: rest, s)
    | none => do
      let (rest, s) ← readTable n (some h) s
      .ok ((h, len) :: rest, s)

/-- `hashes.get(index)` for the manifest hash: an out-of-range index is a
distinct error carrying the index. -/
def resolveManifest (entries : List (Bytes × Nat)) (index : Nat) : Except Error Bytes :=
  match entries.get? index with
  | some e => .ok e.1
  | none => .error (.ManifestIndexOutOfBounds index)

/-- `HashMap` lookup on the association-list model. -/
def lookupA {β : Type} (k : Bytes) : List (Bytes × β) → Option β
  | [] => none
  | e :: r => if e.1 = k then some e.2 else lookupA k r

/-- `HashMap::insert` on the association-list model (replaces the value if the
key is already present). -/
def insertA {β : Type} (k : Bytes) (v : β) : List (Bytes × β) → List (Bytes × β)
  | [] => [(k, v)]
  | e :: r => if e.1 = k then (k, v) :: r else e :: insertA k v r

/-- The blob loop of `load`: for each entry in table order, read exactly the
declared number of bytes, hash them, and require equality with the declared
hash; verified bytes are inserted into the files map keyed by the hash. -/
def readBlobs (E : Ext) : List (Bytes × Nat) → Bytes → List (Bytes × Bytes) →
    Except Error (List (Bytes × Bytes) × Bytes)
  | [], s, files => .ok (files, s)
  | (expected, len) :: rest, s, files => do
    let (buffer, s) ← readExact len s
    let actual := E.blake3 buffer
    if actual = expected then
      readBlobs E rest s (insertA expected buffer files)
    else
      .error (.FileHashInvalid actual expected)

/-- The trailing-bytes check of `load`: compare the stream position (bytes
consumed so far) against the file's total length; leftover bytes are an error
carrying `len.saturating_sub(position)`. -/
def checkTrailing (total : Nat) (s : Bytes) : Except Error Unit :=
  let position := total - s.length
  if position = total then .ok () else .error (.TrailingBytes (total - position))

/-- `Package::load` on the file's bytes.  The `files.get(&manifest_hash).
unwrap()` of the source cannot fail (the manifest hash is one of the table
entries and every entry was inserted), so it is modelled with a default. -/
def load (E : Ext) (input : Bytes) : Except Error Package := do
  let s ← parseMagic input
  let (index, s) ← readU64 s
  let (count, s) ← readU64 s
  let (entries, s) ← readTable count none s
  let manifestHash ← resolveManifest entries index
  let (files, s) ← readBlobs E entries s []
  checkTrailing input.length s
  match E.de ((lookupA manifestHash files).getD []) with
  | none => .error .DeserializeManifest
  | some manifest => do
    E.verify manifest manifestHash files
    .ok { files := files, manifest := manifest }

/-- `Utf8Path::join` for the relative paths produced by the packager. -/
def pathJoin (root p : String) : String := root ++ "/" ++ p

/-- The reverse map built by `save`: `hashes.iter().map(|(path, (hash, _))|
(hash, path)).collect::<HashMap<_, _>>()` — iteration in list order, a later
insert overwriting an earlier one with the same hash. -/
def buildReverse (hs : List (String × Bytes × Nat)) : List (Bytes × String) :=
  hs.foldl (fun acc pr => insertA pr.2.1 pr.1 acc) []

/-- One step of the stable ascending insertion sort modelling `Vec::
sort_by_key` (stable: an element is inserted after all entries whose key is
strictly below it and after none whose key is strictly above it, so equal keys
keep their original relative order). -/
def insertEntry {β : Type} (x : Bytes × β) : List (Bytes × β) → List (Bytes × β)
  | [] => [x]
  | y :: ys => if bytesLt y.1 x.1 then y :: insertEntry x ys else x :: y :: ys

/-- `hashes.sort_by_key(|hash| *hash.0.as_bytes())`: stable sort ascending by
raw hash bytes. -/
def sortByKey {β : Type} (l : List (Bytes × β)) : List (Bytes × β) := l.foldr insertEntry []

/-- `hashes.iter().position(|(hash, _)| *hash == manifest_hash).unwrap()`:
index of the first entry with the given hash (the manifest entry is always
present, so the `unwrap` cannot fail; on an absent hash the model returns the
length). -/
def posOf (mh : Bytes) : List (Bytes × Nat) → Nat
  | [] => 0
  | e :: r => if e.1 = mh then 0 else posOf mh r + 1

/-- The index-table section written by `save`: for each entry in sorted order,
`write_hash` then `write_u64` of the declared length. -/
def encTable : List (Bytes × Nat) → Bytes
  | [] => []
  | e :: r => e.1 ++ le64 e.2 ++ encTable r

/-- The blob section written by `save`: the manifest's serialized bytes where
its entry falls, otherwise the verbatim contents of the source file found
through the reverse path map (`File::open` failure is the path-carrying
`FileIo` error; `io::copy` transfers the file's actual bytes).  The
`paths.get(&hash).unwrap()` cannot fail — every non-manifest hash comes from
the caller's map — so it is modelled with a default. -/
def writeBlobs (E : Ext) (mh : Bytes) (mbytes : Bytes) (rev : List (Bytes × String))
    (root : String) (fs : String → Option Bytes) :
    List (Bytes × Nat) → Except Error Bytes
  | [] => .ok []
  | e :: rest =>
    if e.1 = mh then
      (writeBlobs E mh mbytes rev root fs rest).map (fun tail => mbytes ++ tail)
    else
      let path := pathJoin root ((lookupA e.1 rev).getD "")
      match fs path with
      | none => .error (.FileIoError path)
      | some content => (writeBlobs E mh mbytes rev root fs rest).map (fun tail => content ++ tail)

/-- `Package::save`: `hs` is the caller's path → (hash, declared length) map in
its iteration order, `fs` maps absolute paths to file contents (`none` = the
file cannot be opened).  Returns the bytes written to the output file. -/
def save (E : Ext) (hs : List (String × Bytes × Nat)) (manifest : Manifest)
    (root : String) (fs : String → Option Bytes) : Except Error Bytes := do
  let rev := buildReverse hs
  let mbytes := E.ser manifest
  let mh := E.blake3 mbytes
  let vec := hs.map (fun pr => pr.2) ++ [(mh, mbytes.length)]
  let sorted := sortByKey vec
  let index := posOf mh sorted
  let blobs ← writeBlobs E mh mbytes rev root fs sorted
  .ok (MAGIC_BYTES ++ le64 index ++ le64 sorted.length ++ encTable sorted ++ blobs)

/-- Result of the logical resolver: Rust's `Option<(Mime, Vec<u8>)>` plus a
distinguished value for the `unwrap()` panic on a files-map miss. -/
inductive FileResult
  | notFound
  | panic
  | found (contentType : String) (bytes : Bytes)
deriving DecidableEq

/-- `mime::APPLICATION_OCTET_STREAM`, the `first_or_octet_stream` default. -/
def octetStream : String := "application/octet-stream"

/-- `mime::IMAGE_JPEG`, the fixed content type of comic pages. -/
def imageJpeg : String := "image/jpeg"

/-- `BTreeMap::get` on the path table of an `App` manifest. -/
def lookupStr (k : String) : List (String × Bytes) → Option Bytes
  | [] => none
  | e :: r => if e.1 = k then some e.2 else lookupStr k r

/-- `str::parse::<usize>()` on the 64-bit target: an optional leading `+`,
then one or more ASCII digits, value below `2 ^ 64`; anything else fails. -/
def parseUsize (s : String) : Option Nat :=
  let cs := match s.data with
    | '+' :: rest => rest
    | cs => cs
  if cs = [] then none
  else if cs.all (fun c => c.isDigit) then
    let n := cs.foldl (fun acc c => acc * 10 + (c.toNat - 48)) 0
    if n < 2 ^ 64 then some n else none
  else none

/-- `Package::file`, the logical resolver: `App` manifests look the path up
verbatim in their path table and guess the content type from the path
(defaulting to octet-stream); `Comic` manifests parse the path as a page index
and serve JPEG.  A files-map miss after a manifest hit is the source's
`unwrap()` panic. -/
def Package.file (E : Ext) (p : Package) (path : String) : FileResult :=
  match p.manifest with
  | .App _ paths =>
    match lookupStr path paths with
    | none => .notFound
    | some h =>
      match lookupA h p.files with
      | none => .panic
      | some bytes => .found ((E.mimeGuess path).getD octetStream) bytes
  | .Comic pages =>
    match parseUsize path with
    | none => .notFound
    | some i =>
      match pages.get? i with
      | none => .notFound
      | some h =>
        match lookupA h p.files with
        | none => .panic
        | some bytes => .found imageJpeg bytes

/-- A concrete instantiation of the external collaborators, used to witness
theorems: the hash function tags a 31-zero-byte prefix with the input's length
plus one, serialization is constant, deserialization yields an empty comic,
and `verify` checks that every referenced hash is present. -/
def extD : Ext where
  blake3 := fun b => List.replicate 31 0 ++ [(b.length + 1) % 256]
  ser := fun _ => []
  de := fun _ => some (Manifest.Comic [])
  verify := fun m _ fs =>
    if (manifestHashes m).all (fun h => (lookupA h fs).isSome) then .ok ()
    else .error (.ManifestMissingFiles 1)
  mimeGuess := fun _ => none

end Media

namespace Media

instance {ε α : Type} [DecidableEq ε] [DecidableEq α] : DecidableEq (Except ε α)
  | .error e, .error f => decidable_of_iff (e = f) (by simp)
  | .error _, .ok _ => isFalse (by simp)
  | .ok _, .error _ => isFalse (by simp)
  | .ok a, .ok b => decidable_of_iff (a = b) (by simp)

theorem except_bind_error {ε α β : Type} (e : ε) (f : α → Except ε β) :
    (Except.error e >>= f) = .error e := rfl

theorem except_bind_ok {ε α β : Type} (a : α) (f : α → Except ε β) :
    (Except.ok a >>= f) = f a := rfl

theorem bytesLt_irrefl : ∀ a : Bytes, bytesLt a a = false
  | [] => rfl
  | a :: as => by simp [bytesLt, bytesLt_irrefl as]

theorem bytesLt_asymm : ∀ a b : Bytes, bytesLt a b = true → bytesLt b a = false
  | [], [] => by simp [bytesLt]
  | [], _ :: _ => by simp [bytesLt]
  | _ :: _, [] => by simp [bytesLt]
  | a :: as, b :: bs => by
    simp only [bytesLt]
    intro h
    by_cases h1 : a < b
    · have h2 : ¬ b < a := by omega
      simp [h1, h2]
    · by_cases h2 : b < a
      · simp [h1, h2] at h
      · have h3 : a = b := by omega
        subst h3
        simp [h1, h2] at h ⊢
        exact bytesLt_asymm as bs h

theorem bytesLt_trans : ∀ a b c : Bytes, bytesLt a b = true → bytesLt b c = true →
    bytesLt a c = true
  | _, _, [], _, h2 => by simp [bytesLt] at h2
  | [], _, _ :: _, _, _ => by simp [bytesLt]
  | _ :: _, [], _, h1, _ => by simp [bytesLt] at h1
  | a :: as, b :: bs, c :: cs, h1, h2 => by
    simp only [bytesLt] at h1 h2 ⊢
    by_cases hab : a < b
    · by_cases hbc : b < c
      · simp [show a < c by omega]
      · by_cases hcb : c < b
        · simp [hbc, hcb] at h2
        · have : b = c := by omega
          subst this
          simp [hab]
    · by_cases hba : b < a
      · simp [hab, hba] at h1
      · have : a = b := by omega
        subst this
        by_cases hbc : a < c
        · simp [hbc]
        · by_cases hcb : c < a
          · simp [hbc, hcb] at h2
          · have : a = c := by omega
            subst this
            simp [hbc, hcb] at h1 h2 ⊢
            exact bytesLt_trans as bs cs h1 h2

theorem bytesLt_conn : ∀ a b : Bytes, bytesLt a b = false → bytesLt b a = false → a = b
  | [], [] => by simp
  | [], _ :: _ => by simp [bytesLt]
  | _ :: _, [] => by simp [bytesLt]
  | a :: as, b :: bs => by
    simp only [bytesLt]
    intro h1 h2
    by_cases hab : a < b
    · simp [hab] at h1
    · by_cases hba : b < a
      · simp [hab, hba] at h2
      · have : a = b := by omega
        subst this
        simp [hab] at h1 h2
        exact congrArg (a :: ·) (bytesLt_conn as bs h1 h2)

theorem bytesLt_of_not_of_ne {a b : Bytes} (h : bytesLt a b = false) (hne : a ≠ b) :
    bytesLt b a = true := by
  by_contra hn
  exact hne (bytesLt_conn a b h (by simpa using hn))

theorem ne_of_bytesLt {a b : Bytes} (h : bytesLt a b = true) : a ≠ b := by
  intro he
  subst he
  simp [bytesLt_irrefl] at h

theorem le64_length (n : Nat) : (le64 n).length = 8 := rfl

theorem fromLE_le64 {n : Nat} (h : n < 2 ^ 64) : fromLE (le64 n) = n := by
  simp only [le64, fromLE, List.foldr]
  norm_num
  omega

theorem readU64_prefix {n : Nat} (rest : Bytes) (h : n < 2 ^ 64) :
    readU64 (le64 n ++ rest) = .ok (n, rest) := by
  have h8 : (le64 n).length = 8 := rfl
  simp only [readU64, List.take_left' h8, List.drop_left' h8, List.length_append, h8]
  rw [if_pos (by omega), fromLE_le64 h]

theorem readHash_prefix {h : Bytes} (rest : Bytes) (h32 : h.length = 32) :
    readHash (h ++ rest) = .ok (h, rest) := by
  simp only [readHash, List.take_left' h32, List.drop_left' h32, List.length_append, h32]
  rw [if_pos (by omega)]

theorem readExact_prefix (b : Bytes) (rest : Bytes) :
    readExact b.length (b ++ rest) = .ok (b, rest) := by
  simp only [readExact, List.take_left, List.drop_left, List.length_append]
  rw [if_pos (by omega)]

theorem parseMagic_prefix (rest : Bytes) : parseMagic (MAGIC_BYTES ++ rest) = .ok rest := by
  have h10 : MAGIC_BYTES.length = 10 := rfl
  simp only [parseMagic, List.take_left' h10, List.drop_left' h10, List.length_append, h10]
  rw [show 10 - (10 + rest.length) = 0 by omega]
  simp

end Media

namespace Media

/-- The crafted file of the spec's ordering test: two entries with hashes
`[1; 32]` then `[0; 32]`, both of length 0. -/
def orderFile : Bytes :=
  MAGIC_BYTES ++ le64 0 ++ le64 2 ++
    List.replicate 32 1 ++ le64 0 ++ List.replicate 32 0 ++ le64 0

/-- The crafted file of the spec's duplicate test: two identical `[0; 32]`
entries, both of length 0. -/
def dupFile : Bytes :=
  MAGIC_BYTES ++ le64 0 ++ le64 2 ++
    List.replicate 32 0 ++ le64 0 ++ List.replicate 32 0 ++ le64 0

/-- The crafted file of the spec's content-tampering test: a single entry
declaring hash `[0; 32]` with zero stored bytes. -/
def zeroHashFile : Bytes :=
  MAGIC_BYTES ++ le64 0 ++ le64 1 ++ List.replicate 32 0 ++ le64 0

/-- C10: the file consisting of exactly the first 9 bytes of the 10-byte magic
constant does not fail with a magic-mismatch error: the zero-initialized read
buffer makes the truncated prefix compare equal to the marker (whose last byte
is NUL), and `load` instead fails with an end-of-file I/O error while reading
the manifest-index field (the first read after the marker). -/
theorem C10_truncated_magic_passes (E : Ext) :
    load E (MAGIC_BYTES.take 9) = .error .IoEof ∧
    ∀ bs, load E (MAGIC_BYTES.take 9) ≠ .error (.MagicBytes bs) := by
  refine ⟨rfl, ?_⟩
  intro bs h
  rw [show load E (MAGIC_BYTES.take 9) = .error .IoEof from rfl] at h
  simp at h

/-- C3 counterexample: the magic marker is 10 bytes long, not 9; moreover a
file whose initial bytes (all 9 of them) mismatch the 10-byte marker need not
fail with a magic-bytes error at all. -/
theorem C3_counterexample :
    MAGIC_BYTES.length ≠ 9 ∧
    MAGIC_BYTES.take 9 ≠ MAGIC_BYTES ∧
    load extD (MAGIC_BYTES.take 9) ≠ .error (.MagicBytes (MAGIC_BYTES.take 9)) := by
  decide

/-- C3 (amended): the magic marker is a fixed 10-byte sequence that must
appear verbatim at the start of any valid package; whenever the first
`min(10, len)` bytes of the file, zero-padded to 10 bytes, differ from the
marker, `load` fails with a magic-bytes error reporting exactly the bytes
actually read (which may be fewer than the marker on a truncated file); in
particular a file containing only the 5 bytes `"MEDIA"` fails reporting
exactly those 5 bytes. -/
theorem C3_magic_mismatch (E : Ext) (input : Bytes)
    (h : input.take 10 ++ List.replicate (10 - input.length) 0 ≠ MAGIC_BYTES) :
    MAGIC_BYTES.length = 10 ∧
    load E input = .error (.MagicBytes (input.take 10)) ∧
    load E [77, 69, 68, 73, 65] = .error (.MagicBytes [77, 69, 68, 73, 65]) := by
  refine ⟨rfl, ?_, rfl⟩
  simp only [load, parseMagic, if_neg h, except_bind_error]

theorem C3_magic_mismatch_witness :
    load extD [1] = .error (.MagicBytes [1]) :=
  (C3_magic_mismatch extD [1] (by decide)).2.1

/-- C4: while reading the entry table, each entry after the first must have a
hash byte-wise strictly greater than the previous entry's: a hash strictly
below the previous aborts with an ordering-violation error naming the
offending hash, and a hash equal to the previous aborts with a duplicate-hash
error naming that hash.  The last two conjuncts are the spec's two crafted
files (`[1; 32]` then `[0; 32]`, and twice `[0; 32]`). -/
theorem C4_table_ordering :
    (∀ (n : Nat) (ph h : Bytes) (len : Nat) (s : Bytes),
        h.length = 32 → len < 2 ^ 64 → bytesLt h ph = true →
        readTable (n + 1) (some ph) (h ++ le64 len ++ s) = .error (.FileHashOrder h)) ∧
    (∀ (n : Nat) (ph : Bytes) (len : Nat) (s : Bytes),
        ph.length = 32 → len < 2 ^ 64 →
        readTable (n + 1) (some ph) (ph ++ le64 len ++ s) =
          .error (.FileHashDuplicated ph)) ∧
    (∀ E : Ext, load E orderFile = .error (.FileHashOrder (List.replicate 32 0))) ∧
    (∀ E : Ext, load E dupFile = .error (.FileHashDuplicated (List.replicate 32 0))) := by
  refine ⟨?_, ?_, fun E => rfl, fun E => rfl⟩
  · intro n ph h len s h32 hlen hlt
    rw [List.append_assoc]
    simp only [readTable, readHash_prefix _ h32, except_bind_ok,
      readU64_prefix _ hlen, hlt]
    simp
  · intro n ph len s h32 hlen
    rw [List.append_assoc]
    simp only [readTable, readHash_prefix _ h32, except_bind_ok,
      readU64_prefix _ hlen, bytesLt_irrefl]
    simp

theorem C4_table_ordering_witness :
    readTable 1 (some (List.replicate 32 1)) (List.replicate 32 0 ++ le64 0 ++ []) =
      .error (.FileHashOrder (List.replicate 32 0)) ∧
    readTable 1 (some (List.replicate 32 0)) (List.replicate 32 0 ++ le64 0 ++ []) =
      .error (.FileHashDuplicated (List.replicate 32 0)) ∧
    load extD orderFile = .error (.FileHashOrder (List.replicate 32 0)) ∧
    load extD dupFile = .error (.FileHashDuplicated (List.replicate 32 0)) :=
  ⟨C4_table_ordering.1 0 (List.replicate 32 1) (List.replicate 32 0) 0 []
      (by decide) (by norm_num) (by decide),
    C4_table_ordering.2.1 0 (List.replicate 32 0) 0 [] (by decide) (by norm_num),
    C4_table_ordering.2.2.1 extD,
    C4_table_ordering.2.2.2 extD⟩

end Media

namespace Media

/-- C5: for the entry at the head of the remaining table (so, in table order,
for each entry the loop reaches), the blob loop reads exactly the declared
number of bytes, hashes them, and on a mismatch with the declared hash aborts
with a content-integrity error carrying the computed (actual) and the declared
(expected) hash; in particular the spec's crafted file — one entry declaring
hash `[0; 32]` over zero stored bytes — fails reporting expected `[0; 32]` and
actual `blake3` of the empty input. -/
theorem C5_content_integrity :
    (∀ (E : Ext) (expected : Bytes) (len : Nat) (rest : List (Bytes × Nat))
        (s : Bytes) (files : List (Bytes × Bytes)),
        len ≤ s.length → E.blake3 (s.take len) ≠ expected →
        readBlobs E ((expected, len) :: rest) s files =
          .error (.FileHashInvalid (E.blake3 (s.take len)) expected)) ∧
    (∀ E : Ext, E.blake3 [] ≠ List.replicate 32 0 →
        load E zeroHashFile = .error (.FileHashInvalid (E.blake3 []) (List.replicate 32 0))) := by
  constructor
  · intro E expected len rest s files hlen hne
    simp only [readBlobs, readExact, if_pos hlen, except_bind_ok, if_neg hne]
  · intro E hne
    have e0 : parseMagic zeroHashFile =
        .ok (le64 0 ++ (le64 1 ++ (List.replicate 32 0 ++ le64 0))) := rfl
    have e1 : readU64 (le64 0 ++ (le64 1 ++ (List.replicate 32 0 ++ le64 0))) =
        .ok (0, le64 1 ++ (List.replicate 32 0 ++ le64 0)) := rfl
    have e2 : readU64 (le64 1 ++ (List.replicate 32 0 ++ le64 0)) =
        .ok (1, List.replicate 32 0 ++ le64 0) := rfl
    have e3 : readTable 1 none (List.replicate 32 0 ++ le64 0) =
        .ok ([(List.replicate 32 0, 0)], []) := rfl
    have e4 : resolveManifest [(List.replicate 32 0, 0)] 0 =
        .ok (List.replicate 32 0) := rfl
    have e5 : readExact 0 ([] : Bytes) = .ok ([], []) := rfl
    simp only [load, e0, except_bind_ok, e1, e2, e3, e4, readBlobs, e5,
      List.take_nil, if_neg hne, except_bind_error]

theorem C5_content_integrity_witness :
    readBlobs extD [(List.replicate 32 0, 0)] [] [] =
      .error (.FileHashInvalid (extD.blake3 []) (List.replicate 32 0)) ∧
    load extD zeroHashFile =
      .error (.FileHashInvalid (extD.blake3 []) (List.replicate 32 0)) :=
  ⟨by
    have h := C5_content_integrity.1 extD (List.replicate 32 0) 0 [] [] []
      (by decide) (by decide)
    simpa using h,
    C5_content_integrity.2 extD (by decide)⟩

/-- C6: after the blob loop has consumed all declared entries, `load` compares
the stream position with the file's total length and fails on any leftover
bytes, reporting their exact count; in particular a well-formed single-entry
file (the empty blob, correctly hashed) with one extra trailing byte fails
reporting a trailing count of exactly 1. -/
theorem C6_trailing_bytes :
    (∀ (total : Nat) (s : Bytes), s.length ≤ total → s ≠ [] →
        checkTrailing total s = .error (.TrailingBytes s.length)) ∧
    (∀ E : Ext, (E.blake3 []).length = 32 →
        load E (MAGIC_BYTES ++ le64 0 ++ le64 1 ++ E.blake3 [] ++ le64 0 ++ [0]) =
          .error (.TrailingBytes 1)) := by
  constructor
  · intro total s hle hne
    have hpos : 0 < s.length := List.length_pos.mpr hne
    simp only [checkTrailing]
    rw [if_neg (by omega)]
    have : total - (total - s.length) = s.length := by omega
    rw [this]
  · intro E h32
    have h0 : (0 : Nat) < 2 ^ 64 := by norm_num
    have h1 : (1 : Nat) < 2 ^ 64 := by norm_num
    have e1 := readU64_prefix (n := 0) (le64 1 ++ (E.blake3 [] ++ (le64 0 ++ [0]))) h0
    have e2 := readU64_prefix (n := 1) (E.blake3 [] ++ (le64 0 ++ [0])) h1
    have e3 : readTable 1 none (E.blake3 [] ++ (le64 0 ++ [0])) =
        .ok ([(E.blake3 [], 0)], [0]) := by
      simp only [readTable, readHash_prefix _ h32, except_bind_ok,
        readU64_prefix _ h0]
    have e4 : resolveManifest [(E.blake3 [], 0)] 0 = .ok (E.blake3 []) := rfl
    have e5a : readExact 0 [0] = .ok ([], [0]) := rfl
    have e5 : readBlobs E [(E.blake3 [], 0)] [0] [] = .ok ([(E.blake3 [], [])], [0]) := by
      simp only [readBlobs, e5a, except_bind_ok, if_pos rfl]
      rfl
    have elen : (MAGIC_BYTES ++ (le64 0 ++ (le64 1 ++ (E.blake3 [] ++ (le64 0 ++ [0]))))).length
        = 67 := by
      simp [List.length_append, h32]
      rfl
    have e6 : checkTrailing 67 [0] = .error (.TrailingBytes 1) := rfl
    simp only [List.append_assoc, load, parseMagic_prefix, except_bind_ok,
      e1, e2, e3, e4, e5, elen, e6, except_bind_error]

theorem C6_trailing_bytes_witness :
    checkTrailing 67 [0] = .error (.TrailingBytes 1) ∧
    load extD (MAGIC_BYTES ++ le64 0 ++ le64 1 ++ extD.blake3 [] ++ le64 0 ++ [0]) =
      .error (.TrailingBytes 1) :=
  ⟨by simpa using C6_trailing_bytes.1 67 [0] (by decide) (by decide),
    C6_trailing_bytes.2 extD (by decide)⟩

/-- C7: after the entry table is read and before any blob bytes are read,
`load` resolves the manifest hash as the entry at `manifest_index`; an index
greater than or equal to the entry count aborts with a distinct out-of-bounds
error carrying the index — in particular, for any index and any trailing junk
(whose bytes are never reached), a file with zero entries fails out of bounds. -/
theorem C7_manifest_index_out_of_bounds :
    (∀ (entries : List (Bytes × Nat)) (index : Nat), entries.length ≤ index →
        resolveManifest entries index = .error (.ManifestIndexOutOfBounds index)) ∧
    (∀ (E : Ext) (index : Nat) (junk : Bytes), index < 2 ^ 64 →
        load E (MAGIC_BYTES ++ le64 index ++ le64 0 ++ junk) =
          .error (.ManifestIndexOutOfBounds index)) := by
  constructor
  · intro entries index hle
    simp [resolveManifest, List.getElem?_eq_none hle]
  · intro E index junk hidx
    have h0 : (0 : Nat) < 2 ^ 64 := by norm_num
    have e1 := readU64_prefix (n := index) (le64 0 ++ junk) hidx
    have e2 := readU64_prefix (n := 0) junk h0
    have e3 : readTable 0 none junk = .ok ([], junk) := rfl
    have e4 : resolveManifest [] index = .error (.ManifestIndexOutOfBounds index) := by
      simp [resolveManifest]
    simp only [List.append_assoc, load, parseMagic_prefix, except_bind_ok,
      e1, e2, e3, e4, except_bind_error]

theorem C7_manifest_index_witness :
    resolveManifest [] 0 = .error (.ManifestIndexOutOfBounds 0) ∧
    load extD (MAGIC_BYTES ++ le64 0 ++ le64 0 ++ []) =
      .error (.ManifestIndexOutOfBounds 0) :=
  ⟨C7_manifest_index_out_of_bounds.1 [] 0 (by decide),
    C7_manifest_index_out_of_bounds.2 extD 0 [] (by norm_num)⟩

end Media

namespace Media

theorem insertEntry_perm {β : Type} (x : Bytes × β) :
    ∀ l : List (Bytes × β), List.Perm (insertEntry x l) (x :: l)
  | [] => List.Perm.refl _
  | y :: ys => by
    simp only [insertEntry]
    split
    · exact ((insertEntry_perm x ys).cons y).trans (List.Perm.swap x y ys)
    · exact List.Perm.refl _

theorem sortByKey_perm {β : Type} : ∀ l : List (Bytes × β), List.Perm (sortByKey l) l
  | [] => List.Perm.refl _
  | x :: l => by
    simp only [sortByKey, List.foldr]
    exact (insertEntry_perm x _).trans ((sortByKey_perm l).cons x)

theorem lookupA_insertA {β : Type} (k k2 : Bytes) (v : β) :
    ∀ l : List (Bytes × β),
      lookupA k (insertA k2 v l) = if k2 = k then some v else lookupA k l
  | [] => by simp [insertA, lookupA]
  | e :: r => by
    simp only [insertA]
    by_cases h1 : e.1 = k2
    · by_cases h2 : k2 = k <;> simp [lookupA, h1, h2]
    · by_cases h2 : e.1 = k
      · have h3 : ¬ k2 = k := fun he => h1 (h2.trans he.symm)
        have h4 : ¬ k = k2 := fun he => h3 he.symm
        simp [lookupA, h1, h2, h3, h4]
      · simp [lookupA, h1, h2, lookupA_insertA k k2 v r]

/-- Any hit in the reverse path map comes from an entry of the caller's map. -/
theorem buildReverse_mem :
    ∀ (hs : List (String × Bytes × Nat)) (acc : List (Bytes × String)) (k : Bytes) (p : String),
      lookupA k (hs.foldl (fun a pr => insertA pr.2.1 pr.1 a) acc) = some p →
      (∃ len, (p, k, len) ∈ hs) ∨ lookupA k acc = some p
  | [], _, _, _ => fun h => Or.inr h
  | pr :: hs, acc, k, p => by
    intro h
    rcases buildReverse_mem hs _ k p h with h2 | h2
    · exact Or.inl (h2.imp fun len hm => List.mem_cons_of_mem _ hm)
    · rw [lookupA_insertA] at h2
      by_cases hk : pr.2.1 = k
      · rw [if_pos hk] at h2
        cases h2
        exact Or.inl ⟨pr.2.2, by simp [← hk]⟩
      · rw [if_neg hk] at h2
        exact Or.inr h2

/-- If some entry of the caller's map has the given hash, the reverse path map
has an entry for it. -/
theorem buildReverse_isSome :
    ∀ (hs : List (String × Bytes × Nat)) (acc : List (Bytes × String)) (k : Bytes),
      ((∃ pr ∈ hs, pr.2.1 = k) ∨ (lookupA k acc).isSome) →
      (lookupA k (hs.foldl (fun a pr => insertA pr.2.1 pr.1 a) acc)).isSome
  | [], acc, k => by
    rintro (⟨pr, hm, _⟩ | h)
    · cases hm
    · exact h
  | pr :: hs, acc, k => by
    intro h
    apply buildReverse_isSome hs _ k
    by_cases hk : pr.2.1 = k
    · exact Or.inr (by rw [lookupA_insertA, if_pos hk]; rfl)
    · rcases h with ⟨pr2, hm, he⟩ | h
      · rcases List.mem_cons.mp hm with h2 | h2
        · exact absurd (h2 ▸ he) hk
        · exact Or.inl ⟨pr2, h2, he⟩
      · exact Or.inr (by rw [lookupA_insertA, if_neg hk]; exact h)

/-- The blob-writing loop succeeds when every non-manifest entry resolves to a
readable source file. -/
theorem writeBlobs_isOk (E : Ext) (mh mbytes : Bytes) (rev : List (Bytes × String))
    (root : String) (fs : String → Option Bytes) :
    ∀ entries : List (Bytes × Nat),
      (∀ e ∈ entries, e.1 ≠ mh →
        ∃ p, lookupA e.1 rev = some p ∧ (fs (pathJoin root p)).isSome) →
      ∃ out, writeBlobs E mh mbytes rev root fs entries = .ok out
  | [] => fun _ => ⟨[], rfl⟩
  | e :: rest => by
    intro hok
    obtain ⟨out, hout⟩ := writeBlobs_isOk E mh mbytes rev root fs rest
      (fun x hx => hok x (List.mem_cons_of_mem _ hx))
    by_cases hmh : e.1 = mh
    · exact ⟨mbytes ++ out, by simp [writeBlobs, hmh, hout, Except.map]⟩
    · obtain ⟨p, hp, hsome⟩ := hok e (List.mem_cons_self _ _) hmh
      obtain ⟨c, hc⟩ := Option.isSome_iff_exists.mp hsome
      exact ⟨c ++ out, by simp [writeBlobs, hmh, hp, hc, hout, Except.map]⟩

/-- C8: `save` trusts the caller-declared lengths: whenever every source file
is readable it succeeds, with no re-verification of declared length against
actual size (first conjunct: success needs no relation between declared
lengths and `fs` contents; second conjunct: a concrete save with declared
length 5 over a 1-byte file succeeds, writes 5 into the index entry, and
streams the single actual byte verbatim into the blob section); an unreadable
source file is a distinct error carrying that file's path (third conjunct). -/
theorem C8_save_trusts_lengths :
    (∀ (E : Ext) (hs : List (String × Bytes × Nat)) (m : Manifest) (root : String)
        (fs : String → Option Bytes),
        (∀ pr ∈ hs, (fs (pathJoin root pr.1)).isSome) →
        ∃ out, save E hs m root fs = .ok out) ∧
    (save extD [("a", List.replicate 32 1, 5)] (Manifest.Comic []) "r"
        (fun q => if q = "r/a" then some [9] else none) =
      .ok (MAGIC_BYTES ++ le64 0 ++ le64 2 ++
        ((extD.blake3 [] ++ le64 0) ++ (List.replicate 32 1 ++ le64 5)) ++ [9])) ∧
    (∀ (E : Ext) (m : Manifest) (root path : String) (fs : String → Option Bytes)
        (h : Bytes) (len : Nat),
        fs (pathJoin root path) = none → h ≠ E.blake3 (E.ser m) →
        save E [(path, h, len)] m root fs = .error (.FileIoError (pathJoin root path))) := by
  refine ⟨?_, by decide, ?_⟩
  · intro E hs m root fs hread
    have hgood : ∀ e ∈ sortByKey (hs.map (fun pr => pr.2) ++
        [(E.blake3 (E.ser m), (E.ser m).length)]), e.1 ≠ E.blake3 (E.ser m) →
        ∃ p, lookupA e.1 (buildReverse hs) = some p ∧ (fs (pathJoin root p)).isSome := by
      intro e hmem hne
      have hvec : e ∈ hs.map (fun pr => pr.2) ++ [(E.blake3 (E.ser m), (E.ser m).length)] :=
        (sortByKey_perm _).mem_iff.mp hmem
      rcases List.mem_append.mp hvec with hcaller | hm
      · obtain ⟨pr, hpr, hpre⟩ := List.mem_map.mp hcaller
        have hsome := buildReverse_isSome hs [] e.1
          (Or.inl ⟨pr, hpr, by rw [hpre]⟩)
        obtain ⟨p, hp⟩ := Option.isSome_iff_exists.mp hsome
        refine ⟨p, hp, ?_⟩
        rcases buildReverse_mem hs [] e.1 p hp with ⟨len, hmm⟩ | habs
        · exact hread _ hmm
        · simp [lookupA] at habs
      · exact absurd (congrArg Prod.fst (by simpa using hm : e = _)) hne
    obtain ⟨out, hout⟩ := writeBlobs_isOk E (E.blake3 (E.ser m)) (E.ser m)
      (buildReverse hs) root fs
      (sortByKey (hs.map (fun pr => pr.2) ++ [(E.blake3 (E.ser m), (E.ser m).length)]))
      hgood
    cases hsave : save E hs m root fs with
    | ok o => exact ⟨o, rfl⟩
    | error e =>
      simp only [save, hout, except_bind_ok] at hsave
      exact Except.noConfusion hsave
  · intro E m root path fs h len hnone hne
    simp only [save, buildReverse, List.foldl, insertA, List.map, sortByKey, List.foldr,
      insertEntry]
    split
    · simp [writeBlobs, hne, lookupA, hnone, Except.map, except_bind_error]
    · simp [writeBlobs, hne, lookupA, hnone, except_bind_error]

theorem C8_save_trusts_lengths_witness :
    (∃ out, save extD [("a", List.replicate 32 1, 5)] (Manifest.Comic []) "r"
        (fun q => if q = "r/a" then some [9] else none) = .ok out) ∧
    save extD [("a", List.replicate 32 1, 5)] (Manifest.Comic []) "r" (fun _ => none) =
      .error (.FileIoError "r/a") :=
  ⟨C8_save_trusts_lengths.1 extD _ _ "r" _ (by decide),
    by
      have := C8_save_trusts_lengths.2.2 extD (Manifest.Comic []) "r" "a" (fun _ => none)
        (List.replicate 32 1) 5 rfl (by decide)
      simpa using this⟩

end Media

namespace Media

theorem except_bind_eq_ok {ε α β : Type} {x : Except ε α} {f : α → Except ε β} {b : β}
    (h : (x >>= f) = .ok b) : ∃ a, x = .ok a ∧ f a = .ok b := by
  cases x with
  | error e => simp [except_bind_error] at h
  | ok a => exact ⟨a, rfl, h⟩

theorem lookupStr_mem_snd :
    ∀ {paths : List (String × Bytes)} {k : String} {h : Bytes},
      lookupStr k paths = some h → h ∈ paths.map Prod.snd := by
  intro paths
  induction paths with
  | nil => intro k h hl; simp [lookupStr] at hl
  | cons e r ih =>
    intro k h hl
    simp only [lookupStr] at hl
    by_cases he : e.1 = k
    · rw [if_pos he] at hl
      cases hl
      simp
    · rw [if_neg he] at hl
      simpa using Or.inr (List.mem_map.mp (ih hl))

/-- A successful `load` passed the external `Manifest::verify` check on exactly
the returned manifest and files map. -/
theorem load_ok_verify (E : Ext) (input : Bytes) (p : Package)
    (h : load E input = .ok p) :
    ∃ mh, E.verify p.manifest mh p.files = .ok () := by
  simp only [load] at h
  obtain ⟨s1, h1, h⟩ := except_bind_eq_ok h
  obtain ⟨x2, h2, h⟩ := except_bind_eq_ok h
  obtain ⟨index, s2⟩ := x2
  obtain ⟨x3, h3, h⟩ := except_bind_eq_ok h
  obtain ⟨count, s3⟩ := x3
  obtain ⟨x4, h4, h⟩ := except_bind_eq_ok h
  obtain ⟨entries, s4⟩ := x4
  obtain ⟨mh, h5, h⟩ := except_bind_eq_ok h
  obtain ⟨x6, h6, h⟩ := except_bind_eq_ok h
  obtain ⟨files, s6⟩ := x6
  obtain ⟨u7, h7, h⟩ := except_bind_eq_ok h
  cases hde : E.de ((lookupA mh files).getD []) with
  | none =>
    rw [hde] at h
    exact Except.noConfusion h
  | some man =>
    rw [hde] at h
    obtain ⟨u8, h8, h⟩ := except_bind_eq_ok h
    have hp := Except.ok.inj h
    cases hp
    cases u8
    exact ⟨mh, h8⟩

/-- C9: on any `Package` produced by a successful `load`, the resolver is
total — it returns a found blob or not-found and never hits its `unwrap`
panic.  For an `App` manifest it returns a blob exactly when the path is
verbatim a key of the path table, with the content type guessed from the path
and defaulting to octet-stream; for a `Comic` manifest it returns the page's
stored bytes with the fixed JPEG type exactly when the path parses as a
non-negative integer below the page count, while a parse failure or an
out-of-bounds index is not-found.  The totality rests on the guarantee of the
external `Manifest::verify` (spec §4.4 invariants (7)+(10)): every hash the
manifest references is a key of the files map. -/
theorem C9_resolver_total (E : Ext) (input : Bytes) (p : Package) (path : String)
    (hv : ∀ m mh fs, E.verify m mh fs = .ok () →
      ∀ h ∈ manifestHashes m, (lookupA h fs).isSome)
    (hload : load E input = .ok p) :
    p.file E path ≠ .panic ∧
    (∀ handles paths, p.manifest = .App handles paths →
      (∀ h, lookupStr path paths = some h →
        ∃ bytes, lookupA h p.files = some bytes ∧
          p.file E path = .found ((E.mimeGuess path).getD octetStream) bytes) ∧
      (lookupStr path paths = none → p.file E path = .notFound)) ∧
    (∀ pages, p.manifest = .Comic pages →
      (∀ i, parseUsize path = some i → i < pages.length →
        ∃ h bytes, pages.get? i = some h ∧ lookupA h p.files = some bytes ∧
          p.file E path = .found imageJpeg bytes) ∧
      (∀ i, parseUsize path = some i → pages.length ≤ i → p.file E path = .notFound) ∧
      (parseUsize path = none → p.file E path = .notFound)) := by
  obtain ⟨mh, hver⟩ := load_ok_verify E input p hload
  have href : ∀ h ∈ manifestHashes p.manifest, (lookupA h p.files).isSome :=
    hv _ _ _ hver
  refine ⟨?_, ?_, ?_⟩
  · cases hman : p.manifest with
    | App handles paths =>
      cases hls : lookupStr path paths with
      | none => simp [Package.file, hman, hls]
      | some h =>
        have hs : (lookupA h p.files).isSome :=
          href h (by rw [hman]; exact lookupStr_mem_snd hls)
        obtain ⟨b, hb⟩ := Option.isSome_iff_exists.mp hs
        simp [Package.file, hman, hls, hb]
    | Comic pages =>
      cases hpu : parseUsize path with
      | none => simp [Package.file, hman, hpu]
      | some i =>
        cases hg : pages.get? i with
        | none => simp [Package.file, hman, hpu, ← List.get?_eq_getElem?, hg]
        | some h =>
          have hs : (lookupA h p.files).isSome :=
            href h (by rw [hman]; exact List.get?_mem hg)
          obtain ⟨b, hb⟩ := Option.isSome_iff_exists.mp hs
          simp [Package.file, hman, hpu, ← List.get?_eq_getElem?, hg, hb]
  · intro handles paths hman
    constructor
    · intro h hls
      have hs : (lookupA h p.files).isSome :=
        href h (by rw [hman]; exact lookupStr_mem_snd hls)
      obtain ⟨b, hb⟩ := Option.isSome_iff_exists.mp hs
      exact ⟨b, hb, by simp [Package.file, hman, hls, hb]⟩
    · intro hls
      simp [Package.file, hman, hls]
  · intro pages hman
    refine ⟨?_, ?_, ?_⟩
    · intro i hpu hlt
      have hg : ∃ h, pages.get? i = some h := by
        cases hg2 : pages.get? i with
        | none => exact absurd (List.get?_eq_none.mp hg2) (by omega)
        | some h => exact ⟨h, rfl⟩
      obtain ⟨h, hg⟩ := hg
      have hs : (lookupA h p.files).isSome :=
        href h (by rw [hman]; exact List.get?_mem hg)
      obtain ⟨b, hb⟩ := Option.isSome_iff_exists.mp hs
      exact ⟨h, b, hg, hb, by simp [Package.file, hman, hpu, ← List.get?_eq_getElem?, hg, hb]⟩
    · intro i hpu hle
      have hg : pages.get? i = none := List.get?_eq_none.mpr hle
      simp [Package.file, hman, hpu, ← List.get?_eq_getElem?, hg]
    · intro hpu
      simp [Package.file, hman, hpu]

theorem C9_resolver_total_witness :
    (Package.mk [(List.replicate 31 0 ++ [1], [])] (Manifest.Comic [])).file extD "0" =
      FileResult.notFound ∧
    (Package.mk [(List.replicate 31 0 ++ [1], [])] (Manifest.Comic [])).file extD "abc" ≠
      FileResult.panic := by
  have hv : ∀ m mh fs, extD.verify m mh fs = .ok () →
      ∀ h ∈ manifestHashes m, (lookupA h fs).isSome := by
    intro m mhx fsx hok h hm
    simp [extD] at hok
    exact Option.isSome_iff_ne_none.mpr (hok h hm)
  have hload : load extD
      (MAGIC_BYTES ++ le64 0 ++ le64 1 ++ (List.replicate 31 0 ++ [1]) ++ le64 0) =
      .ok (Package.mk [(List.replicate 31 0 ++ [1], [])] (Manifest.Comic [])) := by decide
  refine ⟨?_, ?_⟩
  · exact ((C9_resolver_total extD _ _ "0" hv hload).2.2 [] rfl).2.1 0 (by decide) (by decide)
  · exact (C9_resolver_total extD _ _ "abc" hv hload).1

end Media

namespace Media

theorem bytesLt_false_trans {a b c : Bytes} (hab : bytesLt a b = false)
    (hbc : bytesLt b c = false) : bytesLt a c = false := by
  cases hac : bytesLt a c with
  | false => rfl
  | true =>
    exfalso
    cases hcb : bytesLt c b with
    | true =>
      have h2 := bytesLt_trans a c b hac hcb
      rw [h2] at hab
      exact Bool.noConfusion hab
    | false =>
      have he : b = c := bytesLt_conn b c hbc hcb
      rw [← he] at hac
      rw [hac] at hab
      exact Bool.noConfusion hab

/-- Insertion after all entries with an equal or smaller key: where a stable
sort places an element that arrived last among its ties. -/
def insertLast {β : Type} (m : Bytes × β) : List (Bytes × β) → List (Bytes × β)
  | [] => [m]
  | y :: ys => if bytesLt m.1 y.1 then m :: y :: ys else y :: insertLast m ys

theorem insertEntry_insertLast_comm {β : Type} (x m : Bytes × β) :
    ∀ s : List (Bytes × β), insertEntry x (insertLast m s) = insertLast m (insertEntry x s)
  | [] => by
    by_cases h : bytesLt m.1 x.1 <;> simp [insertLast, insertEntry, h]
  | y :: ys => by
    by_cases hmy : bytesLt m.1 y.1 = true
    · by_cases hyx : bytesLt y.1 x.1 = true
      · have hmx : bytesLt m.1 x.1 = true := bytesLt_trans _ _ _ hmy hyx
        simp [insertLast, insertEntry, hmy, hyx, hmx]
      · by_cases hmx : bytesLt m.1 x.1 = true <;>
          simp [insertLast, insertEntry, hmy, hyx, hmx]
    · by_cases hyx : bytesLt y.1 x.1 = true
      · simp [insertLast, insertEntry, hmy, hyx, insertEntry_insertLast_comm x m ys]
      · have hmx : bytesLt m.1 x.1 = false :=
          bytesLt_false_trans (by simpa using hmy) (by simpa using hyx)
        simp [insertLast, insertEntry, hmy, hyx, hmx]

theorem sortByKey_cons {β : Type} (x : Bytes × β) (l : List (Bytes × β)) :
    sortByKey (x :: l) = insertEntry x (sortByKey l) := rfl

theorem sortByKey_append_single {β : Type} (A : List (Bytes × β)) (m : Bytes × β) :
    sortByKey (A ++ [m]) = insertLast m (sortByKey A) := by
  induction A with
  | nil => simp [sortByKey, insertLast, insertEntry]
  | cons x A ih =>
    rw [List.cons_append, sortByKey_cons, ih, sortByKey_cons,
      insertEntry_insertLast_comm]

theorem pairwise_insertEntry {β : Type} (x : Bytes × β) (l : List (Bytes × β))
    (h : l.Pairwise (fun a b => bytesLt b.1 a.1 = false)) :
    (insertEntry x l).Pairwise (fun a b => bytesLt b.1 a.1 = false) := by
  induction l with
  | nil => simp [insertEntry]
  | cons y ys ih =>
    rcases List.pairwise_cons.mp h with ⟨hy, hys⟩
    by_cases hcond : bytesLt y.1 x.1 = true
    · rw [show insertEntry x (y :: ys) = y :: insertEntry x ys from by
        simp [insertEntry, hcond]]
      refine List.pairwise_cons.mpr ⟨?_, ih hys⟩
      intro z hz
      rcases List.mem_cons.mp ((insertEntry_perm x ys).mem_iff.mp hz) with hzx | hzy
      · rw [hzx]
        exact bytesLt_asymm _ _ hcond
      · exact hy z hzy
    · rw [show insertEntry x (y :: ys) = x :: y :: ys from by
        simp [insertEntry, hcond]]
      refine List.pairwise_cons.mpr ⟨?_, h⟩
      intro z hz
      rcases List.mem_cons.mp hz with hzy | hzys
      · rw [hzy]
        simpa using hcond
      · exact bytesLt_false_trans (hy z hzys) (by simpa using hcond)

theorem sortByKey_pairwise {β : Type} :
    ∀ l : List (Bytes × β), (sortByKey l).Pairwise (fun a b => bytesLt b.1 a.1 = false)
  | [] => by simp [sortByKey]
  | x :: l => pairwise_insertEntry x _ (sortByKey_pairwise l)

theorem sortByKey_pairwise_lt {β : Type} (l : List (Bytes × β))
    (hnd : (l.map Prod.fst).Nodup) :
    (sortByKey l).Pairwise (fun a b => bytesLt a.1 b.1 = true) := by
  have h1 := sortByKey_pairwise l
  have hmn : ((sortByKey l).map Prod.fst).Nodup :=
    (((sortByKey_perm l).map Prod.fst).nodup_iff).mpr hnd
  have h2 : (sortByKey l).Pairwise (fun a b => a.1 ≠ b.1) := List.pairwise_map.mp hmn
  exact (h1.and h2).imp fun hx => bytesLt_of_not_of_ne hx.1 (fun he => hx.2 he.symm)

theorem sortByKey_eq_of_perm {β : Type} {A1 A2 : List (Bytes × β)}
    (hp : List.Perm A1 A2) (hnd : (A1.map Prod.fst).Nodup) :
    sortByKey A1 = sortByKey A2 := by
  haveI : IsAntisymm (Bytes × β) (fun a b => bytesLt a.1 b.1 = true) :=
    ⟨fun a b hab hba => absurd hba (by simp [bytesLt_asymm _ _ hab])⟩
  have hnd2 : (A2.map Prod.fst).Nodup := ((hp.map Prod.fst).nodup_iff).mp hnd
  exact List.eq_of_perm_of_sorted
    ((sortByKey_perm A1).trans (hp.trans (sortByKey_perm A2).symm))
    (sortByKey_pairwise_lt A1 hnd) (sortByKey_pairwise_lt A2 hnd2)

theorem foldl_insertA_lookup_of_absent :
    ∀ (hs : List (String × Bytes × Nat)) (acc : List (Bytes × String)) (k : Bytes),
      (∀ pr ∈ hs, pr.2.1 ≠ k) →
      lookupA k (hs.foldl (fun a pr => insertA pr.2.1 pr.1 a) acc) = lookupA k acc
  | [], _, _ => fun _ => rfl
  | pr :: hs, acc, k => by
    intro hab
    rw [List.foldl_cons,
      foldl_insertA_lookup_of_absent hs _ k (fun x hx => hab x (List.mem_cons_of_mem _ hx)),
      lookupA_insertA, if_neg (hab pr (List.mem_cons_self _ _))]

theorem buildReverse_lookup_unique :
    ∀ (hs : List (String × Bytes × Nat)) (acc : List (Bytes × String)) (p0 : String)
      (h0 : Bytes) (len0 : Nat),
      (hs.map (fun pr => pr.2.1)).Nodup → (p0, h0, len0) ∈ hs →
      lookupA h0 (hs.foldl (fun a pr => insertA pr.2.1 pr.1 a) acc) = some p0
  | [], _, _, _, _ => by
    intro _ hm
    exact absurd hm (List.not_mem_nil _)
  | pr :: hs, acc, p0, h0, len0 => by
    intro hnd hm
    rw [List.map_cons, List.nodup_cons] at hnd
    rcases List.mem_cons.mp hm with he | hm2
    · have habs : ∀ x ∈ hs, x.2.1 ≠ h0 := by
        intro x hx hcon
        have hmm : x.2.1 ∈ hs.map (fun pr => pr.2.1) := List.mem_map_of_mem _ hx
        rw [hcon] at hmm
        exact hnd.1 (by rw [← he]; exact hmm)
      rw [List.foldl_cons, foldl_insertA_lookup_of_absent hs _ h0 habs,
        lookupA_insertA, if_pos (by rw [← he]), ← he]
    · rw [List.foldl_cons]
      exact buildReverse_lookup_unique hs _ p0 h0 len0 hnd.2 hm2

theorem writeBlobs_congr (E : Ext) (mh mbytes : Bytes) (rev1 rev2 : List (Bytes × String))
    (root : String) (fs : String → Option Bytes) :
    ∀ entries : List (Bytes × Nat),
      (∀ e ∈ entries, e.1 ≠ mh → lookupA e.1 rev1 = lookupA e.1 rev2) →
      writeBlobs E mh mbytes rev1 root fs entries =
        writeBlobs E mh mbytes rev2 root fs entries
  | [] => fun _ => rfl
  | e :: rest => by
    intro hco
    have ih := writeBlobs_congr E mh mbytes rev1 rev2 root fs rest
      (fun x hx => hco x (List.mem_cons_of_mem _ hx))
    by_cases hmh : e.1 = mh
    · simp [writeBlobs, hmh, ih]
    · have hl := hco e (List.mem_cons_self _ _) hmh
      simp [writeBlobs, hmh, hl, ih]

/-- C2 counterexample: the same path → (hash, length) mapping (two paths
sharing a hash but declaring different lengths — `save` never checks the
hashes, so this is a reachable input), enumerated in two different orders,
produces two different output byte strings: with tied hash keys the stable
sort preserves the caller's iteration order. -/
theorem C2_counterexample :
    List.Perm
      [("a", (List.replicate 32 1 : Bytes), 0), ("b", List.replicate 32 1, 1)]
      [("b", (List.replicate 32 1 : Bytes), 1), ("a", List.replicate 32 1, 0)] ∧
    (([("a", (List.replicate 32 1 : Bytes), 0), ("b", List.replicate 32 1, 1)]).map
      (fun pr => pr.1)).Nodup ∧
    save extD [("a", List.replicate 32 1, 0), ("b", List.replicate 32 1, 1)]
        (Manifest.Comic []) "r" (fun _ => some []) ≠
      save extD [("b", List.replicate 32 1, 1), ("a", List.replicate 32 1, 0)]
        (Manifest.Comic []) "r" (fun _ => some []) :=
  ⟨List.Perm.swap _ _ _, by decide, by decide⟩

/-- C2 (amended): for caller mappings whose hash values are pairwise distinct
(which genuine content hashes of distinct contents are), two `save` calls on
the same mapping and manifest produce byte-identical output regardless of the
order in which the caller's map enumerates its entries: the on-disk entry
order then depends only on ascending raw hash bytes.  (Without distinctness
the stable sort keeps tied entries in iteration order — see the
counterexample.) -/
theorem C2_deterministic (E : Ext) (l1 l2 : List (String × Bytes × Nat)) (m : Manifest)
    (root : String) (fs : String → Option Bytes)
    (hperm : List.Perm l1 l2) (hnd : (l1.map (fun pr => pr.2.1)).Nodup) :
    save E l1 m root fs = save E l2 m root fs := by
  have hnd2 : (l2.map (fun pr => pr.2.1)).Nodup := ((hperm.map _).nodup_iff).mp hnd
  have hmapnd : ((l1.map fun pr => pr.2).map Prod.fst).Nodup := by
    rw [List.map_map]
    exact hnd
  have hsorted := sortByKey_eq_of_perm (hperm.map (fun pr => pr.2)) hmapnd
  have hvec : sortByKey (l1.map (fun pr => pr.2) ++
        [(E.blake3 (E.ser m), (E.ser m).length)]) =
      sortByKey (l2.map (fun pr => pr.2) ++
        [(E.blake3 (E.ser m), (E.ser m).length)]) := by
    rw [sortByKey_append_single, sortByKey_append_single, hsorted]
  have hrev : ∀ e : Bytes × Nat,
      e ∈ sortByKey (l2.map (fun pr => pr.2) ++
        [(E.blake3 (E.ser m), (E.ser m).length)]) →
      e.1 ≠ E.blake3 (E.ser m) →
      lookupA e.1 (buildReverse l1) = lookupA e.1 (buildReverse l2) := by
    intro e hmem hne
    have hvecmem := (sortByKey_perm _).mem_iff.mp hmem
    rcases List.mem_append.mp hvecmem with hc | hm2
    · obtain ⟨pr, hpr, hpre⟩ := List.mem_map.mp hc
      have hpr2 : (pr.1, e.1, e.2) = pr := by
        rw [← hpre]
      have hmem2 : (pr.1, e.1, e.2) ∈ l2 := by rw [hpr2]; exact hpr
      have hmem1 : (pr.1, e.1, e.2) ∈ l1 := hperm.symm.subset hmem2
      simp only [buildReverse]
      rw [buildReverse_lookup_unique l1 [] pr.1 e.1 e.2 hnd hmem1,
        buildReverse_lookup_unique l2 [] pr.1 e.1 e.2 hnd2 hmem2]
    · exact absurd (congrArg Prod.fst (by simpa using hm2)) hne
  simp only [save]
  rw [hvec, writeBlobs_congr E _ _ (buildReverse l1) (buildReverse l2) root fs _ hrev]

theorem C2_deterministic_witness :
    save extD [("a", (List.replicate 31 0 ++ [7] : Bytes), 0), ("b", List.replicate 32 1, 1)]
        (Manifest.Comic []) "r" (fun _ => some []) =
      save extD [("b", (List.replicate 32 1 : Bytes), 1), ("a", List.replicate 31 0 ++ [7], 0)]
        (Manifest.Comic []) "r" (fun _ => some []) :=
  C2_deterministic extD _ _ (Manifest.Comic []) "r" (fun _ => some [])
    (List.Perm.swap _ _ _) (by decide)

end Media

namespace Media

/-- Concatenation of blob byte strings (the back-to-back blob section). -/
def joinB : List Bytes → Bytes
  | [] => []
  | b :: r => b ++ joinB r

theorem lookupA_append_none {β : Type} (k : Bytes) :
    ∀ (l1 l2 : List (Bytes × β)), lookupA k l1 = none →
      lookupA k (l1 ++ l2) = lookupA k l2
  | [], _ => fun _ => rfl
  | e :: r, l2 => by
    intro h
    simp only [lookupA] at h ⊢
    by_cases he : e.1 = k
    · rw [if_pos he] at h
      exact Option.noConfusion h
    · rw [if_neg he] at h ⊢
      exact lookupA_append_none k r l2 h

theorem insertA_append_of_absent {β : Type} (k : Bytes) (v : β) :
    ∀ l : List (Bytes × β), lookupA k l = none → insertA k v l = l ++ [(k, v)]
  | [] => fun _ => rfl
  | e :: r => by
    intro h
    simp only [lookupA] at h
    by_cases he : e.1 = k
    · rw [if_pos he] at h
      exact Option.noConfusion h
    · rw [if_neg he] at h
      simp only [insertA, if_neg he, List.cons_append]
      rw [insertA_append_of_absent k v r h]

theorem lookupA_of_mem_nodup {β : Type} (k : Bytes) (v : β) :
    ∀ l : List (Bytes × β), (l.map Prod.fst).Nodup → (k, v) ∈ l →
      lookupA k l = some v
  | [] => by
    intro _ hm
    exact absurd hm (List.not_mem_nil _)
  | e :: r => by
    intro hnd hm
    rw [List.map_cons, List.nodup_cons] at hnd
    rcases List.mem_cons.mp hm with he | hm2
    · rw [← he]
      simp [lookupA]
    · have hne : e.1 ≠ k := by
        intro hc
        exact hnd.1 (hc ▸ List.mem_map_of_mem Prod.fst hm2)
      simp only [lookupA, if_neg hne]
      exact lookupA_of_mem_nodup k v r hnd.2 hm2

theorem posOf_le_length (mh : Bytes) : ∀ l : List (Bytes × Nat), posOf mh l ≤ l.length
  | [] => Nat.le_refl 0
  | e :: r => by
    simp only [posOf]
    by_cases he : e.1 = mh
    · simp [he]
    · simp only [if_neg he, List.length_cons]
      exact Nat.succ_le_succ (posOf_le_length mh r)

theorem posOf_get (mh : Bytes) :
    ∀ l : List (Bytes × Nat), (∃ e ∈ l, e.1 = mh) →
      ∃ e, l.get? (posOf mh l) = some e ∧ e.1 = mh ∧ e ∈ l
  | [] => by
    rintro ⟨e, hm, _⟩
    exact absurd hm (List.not_mem_nil _)
  | e :: r => by
    rintro ⟨e2, hm, he2⟩
    by_cases he : e.1 = mh
    · exact ⟨e, by simp [posOf, he], he, List.mem_cons_self _ _⟩
    · have hr : ∃ x ∈ r, x.1 = mh := by
        rcases List.mem_cons.mp hm with hh | ht
        · exact absurd (hh ▸ he2) he
        · exact ⟨e2, ht, he2⟩
      obtain ⟨x, hx, hx1, hxm⟩ := posOf_get mh r hr
      exact ⟨x, by simpa [posOf, he] using hx, hx1, List.mem_cons_of_mem _ hxm⟩

/-- The entry-table loop accepts the encoding of any strictly-ascending table
(with 32-byte hashes and in-range lengths), returning exactly the entries and
the remaining stream. -/
theorem readTable_encTable :
    ∀ (es : List (Bytes × Nat)) (prev : Option Bytes) (rest : Bytes),
      (∀ e ∈ es, e.1.length = 32 ∧ e.2 < 2 ^ 64) →
      List.Chain' (fun a b => bytesLt a.1 b.1 = true) es →
      (∀ ph, prev = some ph → ∀ e0 ∈ es.head?, bytesLt ph e0.1 = true) →
      readTable es.length prev (encTable es ++ rest) = .ok (es, rest)
  | [], prev, rest => by
    intro _ _ _
    rfl
  | e :: es, prev, rest => by
    intro hwf hch hprev
    obtain ⟨h32, hlen⟩ := hwf e (List.mem_cons_self _ _)
    have hch2 := List.chain'_cons'.mp hch
    have hs : encTable (e :: es) ++ rest = e.1 ++ (le64 e.2 ++ (encTable es ++ rest)) := by
      simp [encTable, List.append_assoc]
    have ih := readTable_encTable es (some e.1) rest
      (fun x hx => hwf x (List.mem_cons_of_mem _ hx)) hch2.2
      (fun ph hph e0 he0 => by
        cases Option.some.inj hph
        exact hch2.1 e0 he0)
    rw [List.length_cons, hs]
    simp only [readTable, readHash_prefix _ h32, except_bind_ok, readU64_prefix _ hlen]
    cases prev with
    | none =>
      rw [ih]
      rfl
    | some ph =>
      have hlt : bytesLt ph e.1 = true := hprev ph rfl e (by simp)
      have hnlt : bytesLt e.1 ph = false := bytesLt_asymm _ _ hlt
      have hne : e.1 ≠ ph := fun hc => (ne_of_bytesLt hlt) hc.symm
      show (if bytesLt e.1 ph = true then _ else _) = _
      rw [if_neg (by simp [hnlt]), if_neg hne, ih]
      rfl

/-- The blob loop accepts the concatenation of contents matching the entries
(declared length = actual length, declared hash = computed hash), building the
files map in table order. -/
theorem readBlobs_append (E : Ext) :
    ∀ (es : List ((Bytes × Nat) × Bytes)) (rest : Bytes) (files0 : List (Bytes × Bytes)),
      (∀ x ∈ es, x.1.2 = x.2.length ∧ E.blake3 x.2 = x.1.1) →
      (∀ x ∈ es, lookupA x.1.1 files0 = none) →
      ((es.map fun x => x.1.1).Nodup) →
      readBlobs E (es.map Prod.fst) (joinB (es.map Prod.snd) ++ rest) files0 =
        .ok (files0 ++ es.map (fun x => (x.1.1, x.2)), rest)
  | [], rest, files0 => by
    intro _ _ _
    simp [joinB, readBlobs]
  | x :: es, rest, files0 => by
    intro hwf hfresh hnd
    obtain ⟨hxlen, hxhash⟩ := hwf x (List.mem_cons_self _ _)
    rw [List.map_cons, List.nodup_cons] at hnd
    have hstream : joinB ((x :: es).map Prod.snd) ++ rest =
        x.2 ++ (joinB (es.map Prod.snd) ++ rest) := by
      simp [joinB, List.append_assoc]
    have hfiles : insertA x.1.1 x.2 files0 = files0 ++ [(x.1.1, x.2)] :=
      insertA_append_of_absent _ _ _ (hfresh x (List.mem_cons_self _ _))
    have hfresh2 : ∀ y ∈ es, lookupA y.1.1 (files0 ++ [(x.1.1, x.2)]) = none := by
      intro y hy
      rw [lookupA_append_none _ _ _ (hfresh y (List.mem_cons_of_mem _ hy))]
      have hne : x.1.1 ≠ y.1.1 := fun hc =>
        hnd.1 (hc ▸ List.mem_map_of_mem (fun z => z.1.1) hy)
      simp [lookupA, hne]
    have ih := readBlobs_append E es rest (files0 ++ [(x.1.1, x.2)])
      (fun y hy => hwf y (List.mem_cons_of_mem _ hy)) hfresh2 hnd.2
    rw [hstream]
    simp only [List.map_cons, readBlobs, hxlen, readExact_prefix, except_bind_ok,
      hxhash, if_pos rfl, hfiles, ih]
    simp

/-- The blob-writing loop emits exactly the concatenation of the entries'
contents: the manifest bytes at the manifest entry, the source file's bytes
elsewhere. -/
theorem writeBlobs_join (E : Ext) (mh mbytes : Bytes) (rev : List (Bytes × String))
    (root : String) (fs : String → Option Bytes) :
    ∀ es : List ((Bytes × Nat) × Bytes),
      (∀ x ∈ es, (x.1.1 = mh ∧ x.2 = mbytes) ∨
        (x.1.1 ≠ mh ∧ ∃ p, lookupA x.1.1 rev = some p ∧ fs (pathJoin root p) = some x.2)) →
      writeBlobs E mh mbytes rev root fs (es.map Prod.fst) = .ok (joinB (es.map Prod.snd))
  | [] => by
    intro _
    rfl
  | x :: es => by
    intro hwf
    have ih := writeBlobs_join E mh mbytes rev root fs es
      (fun y hy => hwf y (List.mem_cons_of_mem _ hy))
    rcases hwf x (List.mem_cons_self _ _) with ⟨hmh, hmb⟩ | ⟨hmh, p, hp, hfs⟩
    · simp [writeBlobs, joinB, hmh, hmb, ih, Except.map]
    · simp [writeBlobs, joinB, hmh, hp, hfs, ih, Except.map]

/-- Sorting commutes with any value-mapping that preserves keys. -/
theorem insertEntry_map {β γ : Type} (g : Bytes × β → γ) (x : Bytes × β) :
    ∀ l : List (Bytes × β),
      insertEntry (x.1, g x) (l.map fun y => (y.1, g y)) =
        (insertEntry x l).map fun y => (y.1, g y)
  | [] => rfl
  | y :: l => by
    simp only [List.map_cons, insertEntry]
    by_cases hc : bytesLt y.1 x.1 = true
    · simp [hc, insertEntry_map g x l]
    · simp [hc]

theorem sortByKey_map {β γ : Type} (g : Bytes × β → γ) :
    ∀ l : List (Bytes × β),
      sortByKey (l.map fun y => (y.1, g y)) = (sortByKey l).map fun y => (y.1, g y)
  | [] => rfl
  | x :: l => by
    rw [List.map_cons, sortByKey_cons, sortByKey_cons, sortByKey_map g l,
      insertEntry_map g x (sortByKey l)]

end Media

namespace Media

/-- The caller-side argument of `save` in the round-trip: each input buffer
keyed by path, with its blake3 hash and its actual byte count as declared
length. -/
def c1Hashes (E : Ext) (input : List (String × Bytes)) : List (String × Bytes × Nat) :=
  input.map (fun pr => (pr.1, E.blake3 pr.2, pr.2.length))

/-- The expected logical files map of the round-trip: the input buffers keyed
by their blake3 hashes, plus the manifest's serialized bytes keyed by the
manifest's hash. -/
def c1Pairs (E : Ext) (input : List (String × Bytes)) (m : Manifest) : List (Bytes × Bytes) :=
  input.map (fun pr => (E.blake3 pr.2, pr.2)) ++ [(E.blake3 (E.ser m), E.ser m)]

/-- The files map `load` actually rebuilds: the same association list in
canonical (hash-sorted) order. -/
def c1Files (E : Ext) (input : List (String × Bytes)) (m : Manifest) : List (Bytes × Bytes) :=
  sortByKey (c1Pairs E input m)

/-- C1: for any path → buffer mapping whose blake3 hashes (the buffers' and
the serialized manifest's) are pairwise distinct, with declared lengths equal
to the buffers' actual byte counts, and any manifest whose consistency check
accepts the resulting files map, loading the file produced by `save` yields a
`Package` whose files association list is exactly the input buffers keyed by
their hashes plus the manifest's serialized bytes keyed by the manifest's hash
(in canonical order — the final permutation conjunct states the equality as
maps), and whose manifest is the input manifest.  Size bounds (`2 ^ 64`)
reflect the u64 fields of the format; `blake3`, CBOR serialization, and
`Manifest::verify` are abstracted, with their interface contracts (32-byte
digests, decodability) as hypotheses. -/
theorem C1_round_trip (E : Ext) (input : List (String × Bytes)) (m : Manifest)
    (root : String) (fs : String → Option Bytes)
    (h32 : ∀ bs : Bytes, (E.blake3 bs).length = 32)
    (hde : E.de (E.ser m) = some m)
    (hdist : ((c1Pairs E input m).map Prod.fst).Nodup)
    (hcount : input.length + 1 < 2 ^ 64)
    (hblen : ∀ pr ∈ input, pr.2.length < 2 ^ 64)
    (hmlen : (E.ser m).length < 2 ^ 64)
    (hfs : ∀ pr ∈ input, fs (pathJoin root pr.1) = some pr.2)
    (hverify : E.verify m (E.blake3 (E.ser m)) (c1Files E input m) = .ok ()) :
    ∃ out, save E (c1Hashes E input) m root fs = .ok out ∧
      load E out = .ok (Package.mk (c1Files E input m) m) ∧
      List.Perm (c1Files E input m) (c1Pairs E input m) := by
  have hSperm : List.Perm (c1Files E input m) (c1Pairs E input m) := sortByKey_perm _
  have hkeys_eq : (c1Pairs E input m).map Prod.fst =
      input.map (fun pr => E.blake3 pr.2) ++ [E.blake3 (E.ser m)] := by
    simp [c1Pairs, List.map_map, Function.comp]
  have hSnd : ((c1Files E input m).map Prod.fst).Nodup :=
    ((hSperm.map Prod.fst).nodup_iff).mpr hdist
  have hSlt := sortByKey_pairwise_lt (c1Pairs E input m) hdist
  have hinj := List.inj_on_of_nodup_map hSnd
  have hmhS : (E.blake3 (E.ser m), E.ser m) ∈ c1Files E input m := by
    apply hSperm.mem_iff.mpr
    simp [c1Pairs]
  have hshape : ∀ y ∈ c1Files E input m, E.blake3 y.2 = y.1 := by
    intro y hy
    rcases List.mem_append.mp (hSperm.subset hy) with hin | hmm
    · obtain ⟨pr, _, hpre⟩ := List.mem_map.mp hin
      rw [← hpre]
    · rw [show y = (E.blake3 (E.ser m), E.ser m) from by simpa using hmm]
  have hmem_char : ∀ y ∈ c1Files E input m, y.1 ≠ E.blake3 (E.ser m) →
      ∃ pr ∈ input, y = (E.blake3 pr.2, pr.2) := by
    intro y hy hne
    rcases List.mem_append.mp (hSperm.subset hy) with hin | hmm
    · obtain ⟨pr, hpr, hpre⟩ := List.mem_map.mp hin
      exact ⟨pr, hpr, hpre.symm⟩
    · exact absurd (congrArg Prod.fst (by simpa using hmm)) hne
  have hnodupH : ((c1Hashes E input).map (fun z => z.2.1)).Nodup := by
    have h1 : (c1Hashes E input).map (fun z => z.2.1) =
        input.map (fun pr => E.blake3 pr.2) := by
      simp [c1Hashes, List.map_map, Function.comp]
    rw [h1]
    have h2 := hdist
    rw [hkeys_eq] at h2
    exact h2.of_append_left
  have hvec : (c1Hashes E input).map (fun pr => pr.2) ++
      [(E.blake3 (E.ser m), (E.ser m).length)] =
      (c1Pairs E input m).map (fun y => (y.1, y.2.length)) := by
    simp [c1Hashes, c1Pairs, List.map_map, Function.comp]
  have hsorted_eq : sortByKey ((c1Pairs E input m).map (fun y => (y.1, y.2.length))) =
      (c1Files E input m).map (fun y => (y.1, y.2.length)) := sortByKey_map _ _
  have hes_fst : ((c1Files E input m).map (fun y => ((y.1, y.2.length), y.2))).map Prod.fst =
      (c1Files E input m).map (fun y => (y.1, y.2.length)) := by
    simp [List.map_map, Function.comp]
  have hes_snd : ((c1Files E input m).map (fun y => ((y.1, y.2.length), y.2))).map Prod.snd =
      (c1Files E input m).map Prod.snd := by
    simp [List.map_map, Function.comp]
  have hcond : ∀ x ∈ (c1Files E input m).map (fun y => ((y.1, y.2.length), y.2)),
      (x.1.1 = E.blake3 (E.ser m) ∧ x.2 = E.ser m) ∨
      (x.1.1 ≠ E.blake3 (E.ser m) ∧ ∃ p, lookupA x.1.1 (buildReverse (c1Hashes E input)) =
        some p ∧ fs (pathJoin root p) = some x.2) := by
    intro x hx
    obtain ⟨y, hyS, hyx⟩ := List.mem_map.mp hx
    by_cases hymh : y.1 = E.blake3 (E.ser m)
    · left
      have hy2 : y = (E.blake3 (E.ser m), E.ser m) := hinj hyS hmhS (by simpa using hymh)
      rw [← hyx, hy2]
      exact ⟨rfl, rfl⟩
    · right
      obtain ⟨pr, hpr, hypr⟩ := hmem_char y hyS hymh
      have hlook : lookupA y.1 (buildReverse (c1Hashes E input)) = some pr.1 := by
        simp only [buildReverse]
        have hmemH : (pr.1, E.blake3 pr.2, pr.2.length) ∈ c1Hashes E input :=
          List.mem_map_of_mem _ hpr
        have hbr := buildReverse_lookup_unique (c1Hashes E input) [] pr.1 (E.blake3 pr.2)
          pr.2.length hnodupH hmemH
        rw [hypr]
        exact hbr
      refine ⟨by rw [← hyx]; exact hymh, pr.1, ?_, ?_⟩
      · rw [← hyx]
        exact hlook
      · rw [← hyx]
        show fs (pathJoin root pr.1) = some y.2
        rw [hypr]
        exact hfs pr hpr
  have hwb : writeBlobs E (E.blake3 (E.ser m)) (E.ser m) (buildReverse (c1Hashes E input))
      root fs ((c1Files E input m).map (fun y => (y.1, y.2.length))) =
      .ok (joinB ((c1Files E input m).map Prod.snd)) := by
    have h0 := writeBlobs_join E (E.blake3 (E.ser m)) (E.ser m)
      (buildReverse (c1Hashes E input)) root fs
      ((c1Files E input m).map (fun y => ((y.1, y.2.length), y.2))) hcond
    rw [hes_fst, hes_snd] at h0
    exact h0
  have hSlen : (c1Files E input m).length = input.length + 1 := by
    rw [hSperm.length_eq]
    simp [c1Pairs]
  have hNlen : ((c1Files E input m).map (fun y => (y.1, y.2.length))).length =
      input.length + 1 := by
    simp [hSlen]
  have hcnt_lt : ((c1Files E input m).map (fun y => (y.1, y.2.length))).length < 2 ^ 64 := by
    rw [hNlen]
    exact hcount
  have hidx_lt : posOf (E.blake3 (E.ser m))
      ((c1Files E input m).map (fun y => (y.1, y.2.length))) < 2 ^ 64 :=
    lt_of_le_of_lt (le_trans (posOf_le_length _ _) (le_of_eq hNlen)) hcount
  have hsave : save E (c1Hashes E input) m root fs =
      .ok (MAGIC_BYTES ++
        (le64 (posOf (E.blake3 (E.ser m))
          ((c1Files E input m).map (fun y => (y.1, y.2.length)))) ++
        (le64 ((c1Files E input m).map (fun y => (y.1, y.2.length))).length ++
        (encTable ((c1Files E input m).map (fun y => (y.1, y.2.length))) ++
          joinB ((c1Files E input m).map Prod.snd))))) := by
    simp only [save, hvec, hsorted_eq, hwb, except_bind_ok]
    simp [List.append_assoc]
  have hwfN : ∀ e ∈ (c1Files E input m).map (fun y => (y.1, y.2.length)),
      e.1.length = 32 ∧ e.2 < 2 ^ 64 := by
    intro e he
    obtain ⟨y, hyS, hyx⟩ := List.mem_map.mp he
    constructor
    · rw [← hyx]
      show y.1.length = 32
      rw [← hshape y hyS]
      exact h32 _
    · rw [← hyx]
      show y.2.length < 2 ^ 64
      rcases List.mem_append.mp (hSperm.subset hyS) with hin | hmm
      · obtain ⟨pr, hpr, hpre⟩ := List.mem_map.mp hin
        rw [← hpre]
        exact hblen pr hpr
      · rw [show y = (E.blake3 (E.ser m), E.ser m) from by simpa using hmm]
        exact hmlen
  have hchN : List.Chain' (fun a b => bytesLt a.1 b.1 = true)
      ((c1Files E input m).map (fun y => (y.1, y.2.length))) := by
    apply List.Pairwise.chain'
    rw [List.pairwise_map]
    exact hSlt.imp (fun hab => hab)
  have hRT : readTable ((c1Files E input m).map (fun y => (y.1, y.2.length))).length none
      (encTable ((c1Files E input m).map (fun y => (y.1, y.2.length))) ++
        joinB ((c1Files E input m).map Prod.snd)) =
      .ok ((c1Files E input m).map (fun y => (y.1, y.2.length)),
        joinB ((c1Files E input m).map Prod.snd)) :=
    readTable_encTable _ none _ hwfN hchN (fun ph hph => absurd hph (by simp))
  have hmhN : (E.blake3 (E.ser m), (E.ser m).length) ∈
      (c1Files E input m).map (fun y => (y.1, y.2.length)) :=
    List.mem_map_of_mem _ hmhS
  have hRM : resolveManifest ((c1Files E input m).map (fun y => (y.1, y.2.length)))
      (posOf (E.blake3 (E.ser m)) ((c1Files E input m).map (fun y => (y.1, y.2.length)))) =
      .ok (E.blake3 (E.ser m)) := by
    obtain ⟨e, hget, he1, hemem⟩ :=
      posOf_get (E.blake3 (E.ser m)) ((c1Files E input m).map (fun y => (y.1, y.2.length)))
        ⟨_, hmhN, rfl⟩
    simp [resolveManifest, ← List.get?_eq_getElem?, hget, he1]
  have hwf2 : ∀ x ∈ (c1Files E input m).map (fun y => ((y.1, y.2.length), y.2)),
      x.1.2 = x.2.length ∧ E.blake3 x.2 = x.1.1 := by
    intro x hx
    obtain ⟨y, hyS, hyx⟩ := List.mem_map.mp hx
    rw [← hyx]
    exact ⟨rfl, hshape y hyS⟩
  have hndES : (((c1Files E input m).map (fun y => ((y.1, y.2.length), y.2))).map
      (fun x => x.1.1)).Nodup := by
    have heq : ((c1Files E input m).map (fun y => ((y.1, y.2.length), y.2))).map
        (fun x => x.1.1) = (c1Files E input m).map Prod.fst := by
      simp [List.map_map, Function.comp]
    rw [heq]
    exact hSnd
  have hes_pairs : ((c1Files E input m).map (fun y => ((y.1, y.2.length), y.2))).map
      (fun x => (x.1.1, x.2)) = c1Files E input m := by
    rw [List.map_map]
    have heta : ((fun x : (Bytes × Nat) × Bytes => (x.1.1, x.2)) ∘
        (fun y : Bytes × Bytes => ((y.1, y.2.length), y.2))) = id := rfl
    rw [heta, List.map_id]
  have hRB : readBlobs E ((c1Files E input m).map (fun y => (y.1, y.2.length)))
      (joinB ((c1Files E input m).map Prod.snd)) [] = .ok (c1Files E input m, []) := by
    have h0 := readBlobs_append E
      ((c1Files E input m).map (fun y => ((y.1, y.2.length), y.2))) [] []
      hwf2 (fun x _ => rfl) hndES
    rw [hes_fst, hes_snd, hes_pairs, List.append_nil, List.nil_append] at h0
    exact h0
  have hlk : lookupA (E.blake3 (E.ser m)) (c1Files E input m) = some (E.ser m) :=
    lookupA_of_mem_nodup _ _ _ hSnd hmhS
  have hCT : ∀ t : Nat, checkTrailing t ([] : Bytes) = .ok () := fun t => by
    simp [checkTrailing]
  have hload : load E (MAGIC_BYTES ++
      (le64 (posOf (E.blake3 (E.ser m))
        ((c1Files E input m).map (fun y => (y.1, y.2.length)))) ++
      (le64 ((c1Files E input m).map (fun y => (y.1, y.2.length))).length ++
      (encTable ((c1Files E input m).map (fun y => (y.1, y.2.length))) ++
        joinB ((c1Files E input m).map Prod.snd))))) =
      .ok (Package.mk (c1Files E input m) m) := by
    simp only [load, parseMagic_prefix, except_bind_ok, readU64_prefix _ hidx_lt,
      readU64_prefix _ hcnt_lt, hRT, hRM, hRB, hCT, hlk, Option.getD_some, hde, hverify]
  exact ⟨_, hsave, hload, hSperm⟩

theorem C1_round_trip_witness :
    ∃ out, save extD (c1Hashes extD [("a", [7])]) (Manifest.Comic []) "r"
        (fun q => if q = "r/a" then some [7] else none) = .ok out ∧
      load extD out =
        .ok (Package.mk (c1Files extD [("a", [7])] (Manifest.Comic []))
          (Manifest.Comic [])) ∧
      List.Perm (c1Files extD [("a", [7])] (Manifest.Comic []))
        (c1Pairs extD [("a", [7])] (Manifest.Comic [])) :=
  C1_round_trip extD [("a", [7])] (Manifest.Comic []) "r"
    (fun q => if q = "r/a" then some [7] else none)
    (fun bs => by simp [extD])
    rfl
    (by decide)
    (by norm_num)
    (by decide)
    (by decide)
    (by decide)
    (by decide)

end Media
